import Mathlib

/-!
Verification of the IELTS-FORM answer-scoring core.

The embedding models the scoring / parsing routines of
`qt_app/src/SectionPanel.cpp` and `qt_app/src/MainWindow.cpp`.

A `QString` is modelled as a list of Unicode code points (`List Nat`).
This keeps the two distinct whitespace notions of the source precise:

* `QString::trimmed` strips characters for which `QChar::isSpace` holds,
  which includes the Unicode space separators (U+00A0, U+2000.., etc.);
* the regular expressions of the source (`[\s\-]+`, `^\s*(\d+(?:&\d+)*)\s+(.+)$`,
  `\s*,\s*`) run under PCRE2 defaults (no `UseUnicodePropertiesOption`), where
  `\s` matches only HT, LF, VT, FF, CR and space, and `\d` only `[0-9]`.
-/

namespace IELTS

/-- A Qt string, as the list of its characters' code points. -/
abbrev QStr := List Nat

/-- Converts a Lean string literal to the code-point model (test inputs only). -/
def qstr (s : String) : QStr := s.toList.map Char.toNat

/-- Character class of PCRE2 `\s` with default options (as used by every regex
in the source): HT, LF, VT, FF, CR and space. -/
def isRegexSpace (c : Nat) : Bool :=
  c == 32 || c == 9 || c == 10 || c == 11 || c == 12 || c == 13

/-- Character class of `QChar::isSpace` (used by `QString::trimmed`): the ASCII
whitespace plus NEL, NBSP and the Unicode separator categories Zs, Zl, Zp. -/
def isQtSpace (c : Nat) : Bool :=
  isRegexSpace c || c == 0x85 || c == 0xA0 || c == 0x1680 ||
  (0x2000 ≤ c && c ≤ 0x200A) || c == 0x2028 || c == 0x2029 ||
  c == 0x202F || c == 0x205F || c == 0x3000

/-- Character class of PCRE2 `\d` with default options: `[0-9]`. -/
def isDigitCp (c : Nat) : Bool := 48 ≤ c && c ≤ 57

/-- Lowercasing of one character, `QChar::toLower` restricted to ASCII
(`A`..`Z` map to `a`..`z`); all inputs relevant to the claims are ASCII. -/
def lowerChar (c : Nat) : Nat := if 65 ≤ c ∧ c ≤ 90 then c + 32 else c

/-- Model of `QString::trimmed`: drop `QChar::isSpace` characters from both
ends. -/
def qTrim (s : QStr) : QStr :=
  ((s.dropWhile isQtSpace).reverse.dropWhile isQtSpace).reverse

/-- Characters kept by `normalizeAnswer`'s replacement step: replacing every
maximal run matching `[\s\-]+` with the empty string deletes exactly the
characters of the class, i.e. the PCRE2 spaces and `-` (code point 45). -/
def keepChar (c : Nat) : Bool := !(isRegexSpace c || c == 45)

/-- Model of `normalizeAnswer` (SectionPanel.cpp:8-13):
`raw.trimmed().toLower()` followed by removing every `[\s\-]+` run. -/
def normalizeAnswer (raw : QStr) : QStr :=
  ((qTrim raw).map lowerChar).filter keepChar

/-- One question slot of a `SectionPanel`: the text of the user answer line
edit, the text of the key line edit, and the verdict label
(`none` = cleared, `some true` = green check, `some false` = red cross). -/
structure Slot where
  user : QStr
  key : QStr
  status : Option Bool
deriving DecidableEq

/-- Model of `SectionPanel::evaluate` (SectionPanel.cpp:124-146): walks the
slots in order; a slot whose trimmed key is empty gets its verdict cleared and
is skipped; otherwise the slot is counted as evaluated, receives a verdict from
comparing the normalized answers, and correct matches are tallied.  Returns the
updated slots together with `(correct, evaluated)`. -/
def evaluate : List Slot → List Slot × Nat × Nat
  | [] => ([], 0, 0)
  | s :: rest =>
    let r := evaluate rest
    let key := qTrim s.key
    if key.isEmpty then
      ({ s with status := none } :: r.1, r.2.1, r.2.2)
    else
      let ok := normalizeAnswer (qTrim s.user) == normalizeAnswer key
      ({ s with status := some ok } :: r.1,
       (if ok then r.2.1 + 1 else r.2.1), r.2.2 + 1)

/-! ## Band tables and `MainWindow::lookupBand` (MainWindow.cpp:41-51, 365-372)

Band values are IEEE doubles in the source; every constant is a multiple of
0.5, hence exactly representable, and no arithmetic is performed on them, so
they are modelled as rationals. -/

/-- The listening band table (MainWindow.cpp:41-45). -/
def listeningBandTable : List (Int × ℚ) :=
  [(39, 9.0), (37, 8.5), (35, 8.0), (32, 7.5), (30, 7.0),
   (26, 6.5), (23, 6.0), (18, 5.5), (16, 5.0), (13, 4.5),
   (11, 4.0), (8, 3.5), (6, 3.0), (4, 2.5), (0, 2.0)]

/-- The reading band table (MainWindow.cpp:47-51). -/
def readingBandTable : List (Int × ℚ) :=
  [(39, 9.0), (37, 8.5), (35, 8.0), (33, 7.5), (30, 7.0),
   (27, 6.5), (23, 6.0), (19, 5.5), (15, 5.0), (13, 4.5),
   (10, 4.0), (8, 3.5), (6, 3.0), (4, 2.5), (0, 2.0)]

/-- The loop of `MainWindow::lookupBand`: scan the table in list order and
return the band of the first entry with `correct >= pair.first`; fall through
to `0.0`. -/
def scanTable : List (Int × ℚ) → Int → ℚ
  | [], _ => 0
  | (m, b) :: rest, c => if m ≤ c then b else scanTable rest c

/-- Model of `MainWindow::lookupBand` (MainWindow.cpp:365-372): the listening
table is used when the section name equals `Listening`, the reading table for
every other name. -/
def lookupBand (sectionName : QStr) (correct : Int) : ℚ :=
  scanTable (if sectionName = qstr ("Listening") then listeningBandTable
             else readingBandTable) correct

/-- Modelled from the spec (section 6): the listening band table's literal
constants, written down from the spec's own list. -/
def specListeningBandTable : List (Int × ℚ) :=
  [(39, 9.0), (37, 8.5), (35, 8.0), (32, 7.5), (30, 7.0),
   (26, 6.5), (23, 6.0), (18, 5.5), (16, 5.0), (13, 4.5),
   (11, 4.0), (8, 3.5), (6, 3.0), (4, 2.5), (0, 2.0)]

/-- Modelled from the spec (section 6): the reading band table's literal
constants, written down from the spec's own list. -/
def specReadingBandTable : List (Int × ℚ) :=
  [(39, 9.0), (37, 8.5), (35, 8.0), (33, 7.5), (30, 7.0),
   (27, 6.5), (23, 6.0), (19, 5.5), (15, 5.0), (13, 4.5),
   (10, 4.0), (8, 3.5), (6, 3.0), (4, 2.5), (0, 2.0)]

/-- Modelled from the spec (section 4.2): the band of the first entry, in the
given order, whose `minCorrect ≤ correctCount`; the tables are listed in
descending `minCorrect` order, so list order is the spec's scan order. -/
def specFirstMatch (table : List (Int × ℚ)) (c : Int) : ℚ :=
  ((table.find? (fun p => decide (p.1 ≤ c))).map Prod.snd).getD 0

/-- Shape of a band table used for monotonicity: all bands nonnegative and
listed in weakly descending order. -/
def tableOk : List (Int × ℚ) → Prop
  | [] => True
  | [p] => 0 ≤ p.2
  | p :: q :: rest => 0 ≤ p.2 ∧ q.2 ≤ p.2 ∧ tableOk (q :: rest)

/-! ## `parseAnswerText` (MainWindow.cpp:53-94) -/

/-- Model of `QString::split(QChar)` with the default `KeepEmptyParts`. -/
def qSplitChar (sep : Nat) : QStr → List QStr
  | [] => [[]]
  | c :: cs =>
    match qSplitChar sep cs with
    | [] => [[]]
    | p :: ps => if c = sep then [] :: p :: ps else (c :: p) :: ps

/-- Model of `QString::startsWith(prefixStr, Qt::CaseInsensitive)`, with the
ASCII lowercasing of `lowerChar` (the prefixes used in the source are plain
ASCII words). -/
def ciStartsWith (pre : QStr) (s : QStr) : Bool :=
  (s.take pre.length).map lowerChar == pre.map lowerChar

/-- Longest digit prefix of a string and the remainder (the `\d+` step of the
line regex `^\s*(\d+(?:&\d+)*)\s+(.+)$`). -/
def spanDigits : QStr → QStr × QStr
  | [] => ([], [])
  | c :: cs =>
    if isDigitCp c then
      let (d, r) := spanDigits cs
      (c :: d, r)
    else ([], c :: cs)

/-- Fuel-driven loop for the `(?:&\d+)*` part of the line regex: repeatedly
consume `&` followed by a nonempty digit run, returning the digit groups and
the remainder.  The fuel only bounds the recursion depth; `ampGroups` supplies
`s.length`, which the loop can never exhaust since every step consumes at
least one character. -/
def ampGroupsF : Nat → QStr → List QStr × QStr
  | 0, s => ([], s)
  | fuel + 1, s =>
    match s with
    | 38 :: rest =>
      match spanDigits rest with
      | ([], _) => ([], s)
      | (d :: ds, r) =>
        let (gs, r2) := ampGroupsF fuel r
        ((d :: ds) :: gs, r2)
    | _ => ([], s)

/-- The `(?:&\d+)*` groups at the head of `s` (code point 38 is `&`). -/
def ampGroups (s : QStr) : List QStr × QStr := ampGroupsF s.length s

/-- Match of the line regex `^\s*(\d+(?:&\d+)*)\s+(.+)$` against a line (which
contains no newline), returning the `&`-separated digit groups of capture 1 —
the source immediately splits capture 1 on `&`, so the groups are returned
directly — and capture 2.  Backtracking analysis: capture 1 must be the
longest `\d+(?:&\d+)*` prefix (any shorter one is followed by a digit or `&`,
never by `\s`), it must be followed by at least one `\s`, and capture 2 is the
rest after the maximal `\s+` run.  In the corner case where that rest is empty
the real regex backtracks and captures a final whitespace character; the
caller trims capture 2 and skips the line when the trim is empty, which is
also what happens here with the empty rest, so the model returns the rest
unchanged. -/
def matchLine (line : QStr) : Option (List QStr × QStr) :=
  let s0 := line.dropWhile isRegexSpace
  match spanDigits s0 with
  | ([], _) => none
  | (d :: ds, rest1) =>
    let (gs, rest2) := ampGroups rest1
    match rest2 with
    | [] => none
    | c :: cs =>
      if isRegexSpace c then some ((d :: ds) :: gs, (c :: cs).dropWhile isRegexSpace)
      else none

/-- ASCII-whitespace trim, matching what the separator regex `\s*,\s*`
absorbs around each comma. -/
def asciiTrim (s : QStr) : QStr :=
  ((s.dropWhile isRegexSpace).reverse.dropWhile isRegexSpace).reverse

/-- Model of `answersToken.split(QRegularExpression("\s*,\s*"), SkipEmptyParts)`
for a token with no leading or trailing ASCII whitespace (the call site
guarantees this: capture 2 starts after the maximal `\s+` run and the line is
trimmed): split on the commas (code point 44), strip the ASCII whitespace the
separator regex would absorb, and drop empty parts. -/
def qSplitAnswers (s : QStr) : List QStr :=
  ((qSplitChar 44 s).map asciiTrim).filter (fun p => !p.isEmpty)

/-- Numeric value of a digit string (most significant first). -/
def digitsToNat (s : QStr) : Nat := s.foldl (fun acc c => acc * 10 + (c - 48)) 0

/-- Model of `QString::toInt` restricted to the nonempty all-digit tokens the
parser feeds it: the decimal value, or `none` (`ok == false`) when the value
overflows a 32-bit `int`. -/
def qToInt (s : QStr) : Option Int :=
  let n := digitsToNat s
  if n ≤ 2147483647 then some (n : Int) else none

/-- A `QMap<int, QString>`: an association list kept in strictly ascending key
order, matching QMap's sorted iteration order. -/
abbrev QMapIS := List (Int × QStr)

/-- Ordered insert-or-overwrite, the model of `mapping[qNum] = answer`. -/
def qmapInsert (m : QMapIS) (k : Int) (v : QStr) : QMapIS :=
  match m with
  | [] => [(k, v)]
  | (k', v') :: rest =>
    if k < k' then (k, v) :: (k', v') :: rest
    else if k = k' then (k, v) :: rest
    else (k', v') :: qmapInsert rest k v

/-- Lookup in the map model. -/
def qmapLookup : QMapIS → Int → Option QStr
  | [], _ => none
  | (k', v') :: rest, k => if k = k' then some v' else qmapLookup rest k

/-- Left-biased choice of two optional values, used to state the
last-write-wins property of the parser. -/
def firstSome (a b : Option QStr) : Option QStr :=
  match a with
  | some v => some v
  | none => b

/-- The inner loop of `parseAnswerText` (MainWindow.cpp:83-90): for the `i`-th
number token, parse it, discard it unless `1 <= qNum <= 40`, and insert the
`i`-th answer (`answers.value(i, answers.last())`), trimmed. -/
def insertNumbers (answers : List QStr) : QMapIS → Nat → List QStr → QMapIS
  | m, _, [] => m
  | m, i, p :: ps =>
    let m' :=
      match qToInt p with
      | none => m
      | some q =>
        if q < 1 ∨ 40 < q then m
        else qmapInsert m q (qTrim (answers.getD i (answers.getLastD [])))
    insertNumbers answers m' (i + 1) ps

/-- One iteration of the `parseAnswerText` line loop (MainWindow.cpp:57-91):
trim the line; skip it when empty, when it starts (case-insensitively) with
`part` or `passage` or with `(` (code point 40), or when the regex does not
match; otherwise split capture 1 on `&` and capture 2 on commas (falling back
to the whole token when the split is empty) and run the insertion loop. -/
def processLine (m : QMapIS) (rawLine : QStr) : QMapIS :=
  let line := qTrim rawLine
  if line.isEmpty then m
  else if ciStartsWith (qstr ("part")) line || ciStartsWith (qstr ("passage")) line
          || line.head? == some 40 then m
  else
    match matchLine line with
    | none => m
    | some (numberParts, captured2) =>
      let answersToken := qTrim captured2
      if answersToken.isEmpty then m
      else
        let answers0 := qSplitAnswers answersToken
        let answers := if answers0.isEmpty then [answersToken] else answers0
        insertNumbers answers m 0 numberParts

/-- Folding the line loop over a list of lines, starting from a given map. -/
def parseLines (m : QMapIS) (lines : List QStr) : QMapIS := lines.foldl processLine m

/-- Model of `parseAnswerText` (MainWindow.cpp:53-94): split the text on `\n`
(code point 10) and run the line loop. -/
def parseAnswerText (text : QStr) : QMapIS := parseLines [] (qSplitChar 10 text)

/-! ## `MainWindow::saveAnswers` and the save-file round trip
(MainWindow.cpp:283-312, spec section 6)

The file body written by `saveAnswers` is modelled as a function of the
answers list; the dialog / file-system interaction around it is UI glue.
There is no load routine in the source, so the reconstruction direction of the
round trip is modelled from the spec. -/

/-- Decimal rendering loop for `out << (i + 1)`: emits the digits of `n` most
significant first, accumulating onto `acc`.  Fuel-driven; `natRender` passes
`n + 1`, which cannot be exhausted since the quotient strictly decreases. -/
def natRenderAux : Nat → Nat → QStr → QStr
  | 0, _, acc => acc
  | fuel + 1, n, acc =>
    if n < 10 then (48 + n) :: acc
    else natRenderAux fuel (n / 10) ((48 + n % 10) :: acc)

/-- Decimal rendering of a natural number, the model of `QTextStream`'s
`operator<<(int)` for the nonnegative question numbers. -/
def natRender (n : Nat) : QStr := natRenderAux (n + 1) n []

/-- The answer lines of the save file (MainWindow.cpp:308-310): one line
`<questionNumber>,<answerText>` per answer, numbering from `q`, each
newline-terminated (code points 44 = `,`, 10 = `\n`). -/
def saveLines (q : Nat) : List QStr → QStr
  | [] => []
  | a :: as => natRender q ++ 44 :: (a ++ 10 :: saveLines (q + 1) as)

/-- The whole save-file body (MainWindow.cpp:307-310): the section name on
line 1, then the answer lines numbered from 1. -/
def saveBody (sectionName : QStr) (answers : List QStr) : QStr :=
  sectionName ++ 10 :: saveLines 1 answers

/-- Modelled from the spec: reconstruction of one `<n>,<answer>` line — the
leading digit run is the question number, it must be followed by a comma, and
everything after the comma is the answer text.  Lines not of this shape yield
nothing. -/
def parseSavedLine (line : QStr) : Option (Nat × QStr) :=
  match spanDigits line with
  | ([], _) => none
  | (d :: ds, rest) =>
    match rest with
    | 44 :: answer => some (digitsToNat (d :: ds), answer)
    | _ => none

/-- Modelled from the spec: reconstruction of the question-number-to-answer
mapping from a save file — drop line 1 (the section name) and read each
remaining line as `<n>,<answer>`. -/
def reconstructSaved (content : QStr) : List (Nat × QStr) :=
  match qSplitChar 10 content with
  | [] => []
  | _ :: rest => rest.filterMap parseSavedLine

/-- The expected reconstruction: the answers paired with consecutive question
numbers starting at `q`. -/
def enumAnswers (q : Nat) : List QStr → List (Nat × QStr)
  | [] => []
  | a :: as => (q, a) :: enumAnswers (q + 1) as

/-! ## Predicates used to state the claims -/

/-- The canonical form that `normalizeAnswer` is meant to compute: lowercase
everything and delete all (ASCII) whitespace and hyphens.  Two strings
"differing only in letter case, whitespace, and hyphens" are two strings with
the same canonical form. -/
def canon (s : QStr) : QStr := (s.map lowerChar).filter keepChar

/-- Strings whose whitespace is ASCII-only: every character that
`QChar::isSpace` accepts is also matched by the regex class `\s`.  On such
strings trimming and the regex deletions agree. -/
def asciiWsOnly (s : QStr) : Prop :=
  ∀ c ∈ s, isQtSpace c = true → isRegexSpace c = true

/-- A pasted line that `parseAnswerText` skips: blank after trimming, a
`part`/`passage`/`(` header, or no match of the line regex. -/
def skippedLine (rawLine : QStr) : Prop :=
  qTrim rawLine = [] ∨
  ciStartsWith (qstr ("part")) (qTrim rawLine) = true ∨
  ciStartsWith (qstr ("passage")) (qTrim rawLine) = true ∨
  (qTrim rawLine).head? = some 40 ∨
  matchLine (qTrim rawLine) = none

/-! ## Lemmas about the band lookup -/

/-- The linear scan of `lookupBand` returns the band of the first entry whose
threshold is at or below the score. -/
theorem scanTable_eq_firstMatch (t : List (Int × ℚ)) (c : Int) :
    scanTable t c = specFirstMatch t c := by
  induction t with
  | nil => rfl
  | cons p rest ih =>
    obtain ⟨m, b⟩ := p
    by_cases h : m ≤ c
    · simp [scanTable, specFirstMatch, List.find?, h]
    · simpa [scanTable, specFirstMatch, List.find?, h] using ih

/-- A scan never exceeds a bound that dominates every band (and `0`). -/
theorem scanTable_le_of_bounds (t : List (Int × ℚ)) (c : Int) (B : ℚ)
    (hB : 0 ≤ B) (h : ∀ p ∈ t, p.2 ≤ B) : scanTable t c ≤ B := by
  induction t with
  | nil => simpa [scanTable] using hB
  | cons p rest ih =>
    obtain ⟨m, b⟩ := p
    by_cases hm : m ≤ c
    · simpa [scanTable, hm] using h (m, b) (by simp)
    · simp only [scanTable, hm, if_false]
      exact ih (fun q hq => h q (List.mem_cons_of_mem _ hq))

/-- Unpacking `tableOk` at a cons cell. -/
theorem tableOk_elim (p : Int × ℚ) (t : List (Int × ℚ)) (h : tableOk (p :: t)) :
    0 ≤ p.2 ∧ tableOk t ∧ ∀ x ∈ t, x.2 ≤ p.2 := by
  induction t generalizing p with
  | nil => exact ⟨h, trivial, by simp⟩
  | cons q rest ih =>
    obtain ⟨h0, hqp, hrest⟩ := h
    refine ⟨h0, hrest, ?_⟩
    intro x hx
    rcases List.mem_cons.mp hx with rfl | hx'
    · exact hqp
    · exact le_trans ((ih q hrest).2.2 x hx') hqp

/-- A descending table with nonnegative bands yields a lookup that is
monotone in the score. -/
theorem scanTable_mono (t : List (Int × ℚ)) (ht : tableOk t)
    (c1 c2 : Int) (h : c1 ≤ c2) : scanTable t c1 ≤ scanTable t c2 := by
  induction t with
  | nil => simp [scanTable]
  | cons p rest ih =>
    obtain ⟨m, b⟩ := p
    obtain ⟨hb, hrest, hbound⟩ := tableOk_elim (m, b) rest ht
    by_cases h1 : m ≤ c1
    · have h2 : m ≤ c2 := le_trans h1 h
      simp [scanTable, h1, h2]
    · by_cases h2 : m ≤ c2
      · simp only [scanTable, h1, h2, if_false, if_true]
        exact scanTable_le_of_bounds rest c1 b hb hbound
      · simp only [scanTable, h1, h2, if_false]
        exact ih hrest

/-- The listening table is descending with nonnegative bands. -/
theorem listening_tableOk : tableOk listeningBandTable := by
  simp only [tableOk, listeningBandTable]
  norm_num

/-- The reading table is descending with nonnegative bands. -/
theorem reading_tableOk : tableOk readingBandTable := by
  simp only [tableOk, readingBandTable]
  norm_num

/-- All thresholds of both tables are nonnegative. -/
theorem tables_minNonneg :
    (∀ p ∈ listeningBandTable, 0 ≤ p.1) ∧ ∀ p ∈ readingBandTable, 0 ≤ p.1 := by
  constructor <;> · intro p hp; fin_cases hp <;> norm_num

/-- A negative score matches no entry of a table with nonnegative thresholds. -/
theorem scanTable_neg (t : List (Int × ℚ)) (h : ∀ p ∈ t, 0 ≤ p.1)
    (c : Int) (hc : c < 0) : scanTable t c = 0 := by
  induction t with
  | nil => rfl
  | cons p rest ih =>
    obtain ⟨m, b⟩ := p
    have hm : ¬ m ≤ c := by
      have := h (m, b) (by simp)
      simp only at this
      omega
    simp only [scanTable, hm, if_false]
    exact ih fun q hq => h q (List.mem_cons_of_mem _ hq)

/-! ## Claim theorems: band lookup (C2, C3, C10) -/

/-- C2: for every section and every nonnegative score, `lookupBand` returns the
band of the first entry, in the descending order of the fixed tables, whose
`minCorrect` is at or below the score; the tables hold exactly the literal
constants of spec section 6, `lookupBand(section, 0) = 2.0` for both sections,
`lookupBand(Listening, 39) = 9.0`, and `lookupBand(Reading, 33) = 7.5`. -/
theorem c2_lookupBand_firstMatch (c : Int) (hc : 0 ≤ c) :
    lookupBand (qstr ("Listening")) c = specFirstMatch specListeningBandTable c
  ∧ lookupBand (qstr ("Reading")) c = specFirstMatch specReadingBandTable c
  ∧ listeningBandTable = specListeningBandTable
  ∧ readingBandTable = specReadingBandTable
  ∧ lookupBand (qstr ("Listening")) 0 = 2.0
  ∧ lookupBand (qstr ("Reading")) 0 = 2.0
  ∧ lookupBand (qstr ("Listening")) 39 = 9.0
  ∧ lookupBand (qstr ("Reading")) 33 = 7.5 := by
  have hL : ∀ c' : Int, lookupBand (qstr ("Listening")) c' = scanTable listeningBandTable c' := by
    intro c'; simp [lookupBand]
  have hR : ∀ c' : Int, lookupBand (qstr ("Reading")) c' = scanTable readingBandTable c' := by
    intro c'; rw [lookupBand, if_neg (by decide)]
  refine ⟨?_, ?_, rfl, rfl, ?_, ?_, ?_, ?_⟩
  · rw [hL, scanTable_eq_firstMatch]; rfl
  · rw [hR, scanTable_eq_firstMatch]; rfl
  · rw [hL]; simp [scanTable, listeningBandTable]
  · rw [hR]; simp [scanTable, readingBandTable]
  · rw [hL]; simp [scanTable, listeningBandTable]
  · rw [hR]; simp [scanTable, readingBandTable]

/-- Witness for C2 at score 0. -/
theorem c2_lookupBand_firstMatch_witness :
    lookupBand (qstr ("Listening")) 0 = specFirstMatch specListeningBandTable 0 :=
  (c2_lookupBand_firstMatch 0 (by norm_num)).1

/-- C3: for each fixed section name, `lookupBand` is monotone nondecreasing in
the score. -/
theorem c3_lookupBand_mono (name : QStr) (c1 c2 : Int)
    (h0 : 0 ≤ c1) (h12 : c1 ≤ c2) :
    lookupBand name c1 ≤ lookupBand name c2 := by
  unfold lookupBand
  by_cases h : name = qstr ("Listening")
  · simp only [h, if_pos rfl]
    exact scanTable_mono _ listening_tableOk _ _ h12
  · simp only [if_neg h]
    exact scanTable_mono _ reading_tableOk _ _ h12

/-- Witness for C3 at scores 3 and 17 on the listening table. -/
theorem c3_lookupBand_mono_witness :
    lookupBand (qstr ("Listening")) 3 ≤ lookupBand (qstr ("Listening")) 17 :=
  c3_lookupBand_mono (qstr ("Listening")) 3 17 (by norm_num) (by norm_num)

/-- C10: for every section name and every negative score no table entry
matches, and `lookupBand` returns the fall-through value `0.0`. -/
theorem c10_lookupBand_neg_total (name : QStr) (c : Int) (hc : c < 0) :
    lookupBand name c = 0 := by
  unfold lookupBand
  by_cases h : name = qstr ("Listening")
  · simp only [h, if_pos rfl]
    exact scanTable_neg _ tables_minNonneg.1 _ hc
  · simp only [if_neg h]
    exact scanTable_neg _ tables_minNonneg.2 _ hc

/-- Witness for C10 at score -1 with a section name that is neither section. -/
theorem c10_lookupBand_neg_total_witness :
    lookupBand (qstr ("Speaking")) (-1) = 0 :=
  c10_lookupBand_neg_total (qstr ("Speaking")) (-1) (by norm_num)

/-! ## Lemmas about trimming and normalization -/

/-- The first survivor of a `dropWhile` fails the predicate. -/
theorem dropWhile_head_not (p : Nat → Bool) (l : QStr) (c : Nat) (t : QStr)
    (h : l.dropWhile p = c :: t) : p c = false := by
  induction l with
  | nil => simp at h
  | cons a l ih =>
    rw [List.dropWhile_cons] at h
    by_cases hp : p a
    · rw [if_pos hp] at h
      exact ih h
    · rw [if_neg hp] at h
      obtain ⟨rfl, -⟩ := List.cons.injEq .. ▸ h
      simpa using hp

/-- Dropping a prefix twice is the same as dropping it once. -/
theorem dropWhile_idem (p : Nat → Bool) (l : QStr) :
    (l.dropWhile p).dropWhile p = l.dropWhile p := by
  cases hd : l.dropWhile p with
  | nil => rfl
  | cons c t =>
    rw [List.dropWhile_cons, dropWhile_head_not p l c t hd]
    simp

/-- A list whose head (if any) fails the predicate is unchanged by
`dropWhile`. -/
theorem dropWhile_eq_self_of_head (p : Nat → Bool) (y : QStr)
    (h : ∀ c, y.head? = some c → p c = false) : y.dropWhile p = y := by
  cases y with
  | nil => rfl
  | cons c t =>
    rw [List.dropWhile_cons, h c rfl]
    simp

/-- `dropWhile` keeps the last element when that element fails the
predicate (unless it empties the list). -/
theorem getLast?_dropWhile (p : Nat → Bool) (l : QStr) (x : Nat)
    (hx : l.getLast? = some x) (hp : p x = false) :
    l.dropWhile p = [] ∨ (l.dropWhile p).getLast? = some x := by
  induction l with
  | nil => simp at hx
  | cons a l ih =>
    cases l with
    | nil =>
      have : a = x := by simpa using hx
      subst this
      rw [List.dropWhile_cons]
      by_cases hpa : p a
      · left; simp [hpa]
      · right; simp [hpa]
    | cons b l' =>
      have hx' : (b :: l').getLast? = some x := by
        simpa [List.getLast?_cons_cons] using hx
      rw [List.dropWhile_cons]
      by_cases hpa : p a
      · rw [if_pos hpa]
        exact ih hx'
      · rw [if_neg hpa]
        right
        simpa [List.getLast?_cons_cons] using hx'

/-- Trimming is idempotent. -/
theorem qTrim_idem (s : QStr) : qTrim (qTrim s) = qTrim s := by
  unfold qTrim
  cases hu : s.dropWhile isQtSpace with
  | nil => rfl
  | cons c0 t0 =>
    have hc0 : isQtSpace c0 = false := dropWhile_head_not _ s c0 t0 hu
    have hlast : (c0 :: t0).reverse.getLast? = some c0 := by
      rw [List.getLast?_reverse]; rfl
    rcases getLast?_dropWhile isQtSpace (c0 :: t0).reverse c0 hlast hc0 with hnil | hl
    · rw [hnil]; rfl
    · have hhead : ∀ c,
          ((c0 :: t0).reverse.dropWhile isQtSpace).reverse.head? = some c →
          isQtSpace c = false := by
        intro c hc
        rw [List.head?_reverse, hl] at hc
        obtain rfl := Option.some.injEq .. ▸ hc
        exact hc0
      rw [dropWhile_eq_self_of_head isQtSpace _ hhead, List.reverse_reverse,
          dropWhile_idem]

/-- `normalizeAnswer` ignores an outer trim: the slot comparison in
`evaluate` on pre-trimmed strings equals the comparison of the raw strings. -/
theorem normalizeAnswer_qTrim (s : QStr) :
    normalizeAnswer (qTrim s) = normalizeAnswer s := by
  unfold normalizeAnswer
  rw [qTrim_idem]

/-! ## Claim theorems: evaluate (C1, C9) -/

/-- C1 (amended): `evaluate` counts as evaluated exactly the slots whose key
is non-empty after trimming (whitespace-only keys are excluded like empty
ones); among those, the correct count is of the slots whose normalized user
answer equals the normalized key; and correct ≤ evaluated ≤ total. -/
theorem c1_evaluate_counts (slots : List Slot) :
    (evaluate slots).2.2 = (slots.filter (fun s => !(qTrim s.key).isEmpty)).length
  ∧ (evaluate slots).2.1 = (slots.filter (fun s => !(qTrim s.key).isEmpty
      && (normalizeAnswer s.user == normalizeAnswer s.key))).length
  ∧ (evaluate slots).2.1 ≤ (evaluate slots).2.2
  ∧ (evaluate slots).2.2 ≤ slots.length := by
  induction slots with
  | nil => exact ⟨rfl, rfl, le_refl 0, le_refl 0⟩
  | cons s rest ih =>
    obtain ⟨ihE, ihC, ihle, ihlen⟩ := ih
    have hEval : evaluate (s :: rest)
        = (let r := evaluate rest
           if (qTrim s.key).isEmpty then
             ({ s with status := none } :: r.1, r.2.1, r.2.2)
           else
             let ok := normalizeAnswer s.user == normalizeAnswer s.key
             ({ s with status := some ok } :: r.1,
              (if ok then r.2.1 + 1 else r.2.1), r.2.2 + 1)) := by
      simp only [evaluate, normalizeAnswer_qTrim]
    by_cases hk : (qTrim s.key).isEmpty
    · rw [hEval]
      simp only [if_pos hk]
      have hok : (!(qTrim s.key).isEmpty) = false := by simp [hk]
      simp only [List.filter_cons, hok, Bool.false_and, List.length_cons, if_neg]
      exact ⟨ihE, ihC, ihle, Nat.le_succ_of_le ihlen⟩
    · rw [hEval]
      simp only [if_neg hk]
      have hok : (!(qTrim s.key).isEmpty) = true := by simp [hk]
      simp only [List.filter_cons, hok, Bool.true_and, List.length_cons]
      cases hc : (normalizeAnswer s.user == normalizeAnswer s.key) <;>
        simp only [hc, if_pos, if_neg, Bool.false_eq_true, not_false_eq_true,
          List.length_cons, ite_true, ite_false] <;>
        omega

/-- C1 counterexample: a slot whose key text is a single space has a
non-empty `keyAnswer`, yet `evaluate` does not count it as evaluated — the
claim's `evaluatedCount = number of slots with non-empty keyAnswer` fails. -/
theorem c1_counterexample :
    ¬ ((evaluate [⟨[], [32], none⟩]).2.2
        = ([(⟨[], [32], none⟩ : Slot)].filter (fun s => !s.key.isEmpty)).length) := by
  decide

/-- C9: `evaluate` leaves every slot's user answer and key answer unchanged;
only the verdicts and the returned tally are produced. -/
theorem c9_evaluate_frame (slots : List Slot) :
    (evaluate slots).1.map Slot.user = slots.map Slot.user
  ∧ (evaluate slots).1.map Slot.key = slots.map Slot.key := by
  induction slots with
  | nil => exact ⟨rfl, rfl⟩
  | cons s rest ih =>
    obtain ⟨ihU, ihK⟩ := ih
    by_cases hk : (qTrim s.key).isEmpty
    · simp only [evaluate, if_pos hk, List.map_cons]
      exact ⟨by rw [ihU], by rw [ihK]⟩
    · simp only [evaluate, if_neg hk, List.map_cons]
      exact ⟨by rw [ihU], by rw [ihK]⟩

/-! ## Lemmas about `canon` and case/whitespace insensitivity -/

/-- Lowercasing fixes the ASCII whitespace characters. -/
theorem lowerChar_space (c : Nat) (h : isRegexSpace c = true) : lowerChar c = c := by
  simp only [isRegexSpace, Bool.or_eq_true, beq_iff_eq] at h
  unfold lowerChar
  rw [if_neg (by omega)]

/-- Lowercasing is idempotent. -/
theorem lowerChar_idem (c : Nat) : lowerChar (lowerChar c) = lowerChar c := by
  unfold lowerChar
  split_ifs <;> omega

/-- An ASCII whitespace character is deleted by the `[\s\-]+` replacement
even after lowercasing. -/
theorem keep_lower_false (c : Nat) (h : isRegexSpace c = true) :
    keepChar (lowerChar c) = false := by
  rw [lowerChar_space c h]
  simp [keepChar, h]

/-- Members of a `dropWhile` are members of the list. -/
theorem mem_of_mem_dropWhile (p : Nat → Bool) (l : QStr) (c : Nat)
    (h : c ∈ l.dropWhile p) : c ∈ l := by
  induction l with
  | nil => simpa using h
  | cons a l ih =>
    rw [List.dropWhile_cons] at h
    by_cases hp : p a
    · rw [if_pos hp] at h
      exact List.mem_cons_of_mem _ (ih h)
    · rw [if_neg hp] at h
      exact h

/-- On a string whose whitespace is ASCII-only, dropping a leading run of
`QChar::isSpace` characters does not change the canonical form. -/
theorem filterMap_dropWhile (l : QStr)
    (hws : ∀ c ∈ l, isQtSpace c = true → isRegexSpace c = true) :
    ((l.dropWhile isQtSpace).map lowerChar).filter keepChar
      = (l.map lowerChar).filter keepChar := by
  induction l with
  | nil => rfl
  | cons a l ih =>
    rw [List.dropWhile_cons]
    by_cases ha : isQtSpace a
    · rw [if_pos ha, ih (fun c hc h => hws c (List.mem_cons_of_mem _ hc) h),
        List.map_cons, List.filter_cons, keep_lower_false a (hws a (by simp) ha)]
      simp
    · rw [if_neg ha]

/-- The canonical form commutes with reversal. -/
theorem filter_map_reverse (l : QStr) :
    ((l.reverse).map lowerChar).filter keepChar
      = ((l.map lowerChar).filter keepChar).reverse := by
  rw [List.map_reverse, List.filter_reverse]

/-- On a string whose whitespace is ASCII-only, `normalizeAnswer` computes the
canonical lowercase whitespace-and-hyphen-free form. -/
theorem normalizeAnswer_eq_canon (s : QStr) (h : asciiWsOnly s) :
    normalizeAnswer s = canon s := by
  unfold normalizeAnswer canon qTrim asciiWsOnly at *
  rw [filter_map_reverse,
      filterMap_dropWhile _ (fun c hc h' =>
        h c (mem_of_mem_dropWhile _ _ _ (List.mem_reverse.mp hc)) h'),
      filter_map_reverse, List.reverse_reverse, filterMap_dropWhile _ h]

/-- The canonical form of a string with ASCII-only whitespace again has
ASCII-only whitespace (all its whitespace was deleted). -/
theorem asciiWsOnly_canon (s : QStr) (h : asciiWsOnly s) :
    asciiWsOnly (canon s) := by
  intro c hc hq
  have hc' : c ∈ s.map lowerChar := (List.mem_filter.mp hc).1
  obtain ⟨d, hd, rfl⟩ := List.mem_map.mp hc'
  by_cases h65 : 65 ≤ d ∧ d ≤ 90
  · exfalso
    unfold lowerChar at hq
    rw [if_pos h65] at hq
    simp only [isQtSpace, isRegexSpace, Bool.or_eq_true, beq_iff_eq,
      Bool.and_eq_true, decide_eq_true_eq] at hq
    omega
  · unfold lowerChar at hq ⊢
    rw [if_neg h65] at hq ⊢
    exact h d hd hq

/-- A map whose function fixes every member is the identity. -/
theorem map_eq_self_of_mem (f : Nat → Nat) (l : QStr) (h : ∀ c ∈ l, f c = c) :
    l.map f = l := by
  induction l with
  | nil => rfl
  | cons a l ih =>
    rw [List.map_cons, h a (by simp), ih (fun c hc => h c (List.mem_cons_of_mem _ hc))]

/-- The canonical form is idempotent. -/
theorem canon_idem (s : QStr) : canon (canon s) = canon s := by
  unfold canon
  have h1 : ((s.map lowerChar).filter keepChar).map lowerChar
      = (s.map lowerChar).filter keepChar := by
    apply map_eq_self_of_mem
    intro c hc
    obtain ⟨d, -, rfl⟩ := List.mem_map.mp (List.mem_filter.mp hc).1
    exact lowerChar_idem d
  rw [h1, List.filter_filter]
  simp [Bool.and_self]

/-! ## Claim theorems: normalization (C4, C5) -/

/-- C4 (amended): two strings that differ only in ASCII letter case, ASCII
whitespace and hyphens — i.e. with equal canonical forms — and that contain no
non-ASCII whitespace normalize identically; in particular the three quoted
strings do. -/
theorem c4_normalize_insensitive :
    (∀ x y : QStr, asciiWsOnly x → asciiWsOnly y → canon x = canon y →
        normalizeAnswer x = normalizeAnswer y)
  ∧ normalizeAnswer (qstr ("New-York")) = normalizeAnswer (qstr (" new york "))
  ∧ normalizeAnswer (qstr (" new york ")) = normalizeAnswer (qstr ("NEWYORK")) := by
  refine ⟨?_, by decide, by decide⟩
  intro x y hx hy hcanon
  rw [normalizeAnswer_eq_canon x hx, normalizeAnswer_eq_canon y hy, hcanon]

/-- Witness for C4 on two concrete strings differing in case, spaces and a
hyphen. -/
theorem c4_normalize_insensitive_witness :
    normalizeAnswer (qstr ("A - b")) = normalizeAnswer (qstr ("ab")) :=
  c4_normalize_insensitive.1 (qstr ("A - b")) (qstr ("ab"))
    (by unfold asciiWsOnly; decide) (by unfold asciiWsOnly; decide) (by decide)

/-- C4 counterexample: `[97, 160, 45]` is `"a" ++ NBSP ++ "-"` and
`[97, 160]` is `"a" ++ NBSP`; the two strings differ only by a hyphen, yet
they normalize differently (the first keeps its non-breaking space because the
hyphen shields it from trimming, while the ASCII-only regex never deletes it;
the second loses it to trimming). -/
theorem c4_counterexample :
    ([97, 160, 45] : QStr) = [97, 160] ++ [45]
  ∧ normalizeAnswer [97, 160, 45] ≠ normalizeAnswer [97, 160] := by
  decide

/-- C5 (amended): `normalizeAnswer` is idempotent on every string containing
no non-ASCII whitespace. -/
theorem c5_normalize_idem (x : QStr) (h : asciiWsOnly x) :
    normalizeAnswer (normalizeAnswer x) = normalizeAnswer x := by
  rw [normalizeAnswer_eq_canon x h,
      normalizeAnswer_eq_canon (canon x) (asciiWsOnly_canon x h),
      canon_idem]

/-- Witness for C5 on a concrete ASCII string. -/
theorem c5_normalize_idem_witness :
    normalizeAnswer (normalizeAnswer (qstr (" A b-c "))) = normalizeAnswer (qstr (" A b-c ")) :=
  c5_normalize_idem (qstr (" A b-c ")) (by unfold asciiWsOnly; decide)

/-- C5 counterexample: on `"a" ++ NBSP ++ "-"` a second `normalizeAnswer`
changes the result — the first pass deletes the hyphen, exposing the
non-breaking space to the second pass's trim. -/
theorem c5_counterexample :
    normalizeAnswer (normalizeAnswer [97, 160, 45]) ≠ normalizeAnswer [97, 160, 45] := by
  decide

/-! ## Lemmas about the paste parser -/

/-- A line satisfying any skip condition leaves the mapping untouched. -/
theorem processLine_skipped (m : QMapIS) (l : QStr) (h : skippedLine l) :
    processLine m l = m := by
  unfold processLine
  unfold skippedLine at h
  rcases h with h | h | h | h | h
  · rw [if_pos (by simp [h])]
  · by_cases he : (qTrim l).isEmpty
    · rw [if_pos he]
    · rw [if_neg he, if_pos (by simp [h])]
  · by_cases he : (qTrim l).isEmpty
    · rw [if_pos he]
    · rw [if_neg he, if_pos (by simp [h])]
  · by_cases he : (qTrim l).isEmpty
    · rw [if_pos he]
    · rw [if_neg he, if_pos (by simp [h])]
  · by_cases he : (qTrim l).isEmpty
    · rw [if_pos he]
    · rw [if_neg he]
      by_cases hh : (ciStartsWith (qstr ("part")) (qTrim l)
          || ciStartsWith (qstr ("passage")) (qTrim l)
          || (qTrim l).head? == some 40)
      · rw [if_pos hh]
      · rw [if_neg hh, h]

/-- Unfolding equation of `qSplitChar` at a cons cell. -/
theorem qSplitChar_cons (sep c : Nat) (cs : QStr) :
    qSplitChar sep (c :: cs) =
      match qSplitChar sep cs with
      | [] => [[]]
      | p :: ps => if c = sep then [] :: p :: ps else (c :: p) :: ps := rfl

/-- A split always yields at least one part. -/
theorem qSplitChar_ne_nil (sep : Nat) (l : QStr) : qSplitChar sep l ≠ [] := by
  cases l with
  | nil => simp [qSplitChar]
  | cons c cs =>
    rw [qSplitChar_cons]
    cases qSplitChar sep cs with
    | nil => simp
    | cons p ps => by_cases hc : c = sep <;> simp [hc]

/-- Splitting distributes over a separator occurrence. -/
theorem qSplitChar_append (sep : Nat) (t1 t2 : QStr) :
    qSplitChar sep (t1 ++ sep :: t2) = qSplitChar sep t1 ++ qSplitChar sep t2 := by
  induction t1 with
  | nil =>
    rw [List.nil_append, qSplitChar_cons]
    cases h2 : qSplitChar sep t2 with
    | nil => exact absurd h2 (qSplitChar_ne_nil sep t2)
    | cons p ps => simp [qSplitChar]
  | cons a t1 ih =>
    rw [List.cons_append, qSplitChar_cons, ih, qSplitChar_cons]
    cases h1 : qSplitChar sep t1 with
    | nil => exact absurd h1 (qSplitChar_ne_nil sep t1)
    | cons p ps => by_cases ha : a = sep <;> simp [ha]

/-- A separator-free string splits into itself alone. -/
theorem qSplitChar_no_sep (sep : Nat) (l : QStr) (h : ¬ sep ∈ l) :
    qSplitChar sep l = [l] := by
  induction l with
  | nil => rfl
  | cons c cs ih =>
    rw [qSplitChar_cons, ih (fun hm => h (List.mem_cons_of_mem _ hm))]
    have hc : ¬ c = sep := fun hc => h (hc ▸ List.mem_cons_self c cs)
    simp [fun hcs : c = sep => hc hcs]

/-- Lookup after an ordered insert-or-overwrite. -/
theorem qmapLookup_insert (m : QMapIS) (k : Int) (v : QStr) (n : Int) :
    qmapLookup (qmapInsert m k v) n = if n = k then some v else qmapLookup m n := by
  induction m with
  | nil => simp [qmapInsert, qmapLookup]
  | cons p rest ih =>
    obtain ⟨k', v'⟩ := p
    unfold qmapInsert
    by_cases h1 : k < k'
    · rw [if_pos h1]
      by_cases h3 : n = k <;> simp [qmapLookup, h3]
    · rw [if_neg h1]
      by_cases h2 : k = k'
      · rw [if_pos h2]
        subst h2
        by_cases h3 : n = k <;> simp [qmapLookup, h3]
      · rw [if_neg h2]
        by_cases h3 : n = k'
        · subst h3
          have : ¬ n = k := fun hnk => h2 hnk.symm
          simp [qmapLookup, this]
        · simp [qmapLookup, h3, ih]

/-- The insertion loop writes values that do not depend on the incoming map:
a lookup after the loop is the loop's own write if any, else the old value. -/
theorem insertNumbers_override (ans : List QStr) (ps : List QStr) :
    ∀ (m : QMapIS) (i : Nat) (n : Int),
      qmapLookup (insertNumbers ans m i ps) n
        = firstSome (qmapLookup (insertNumbers ans [] i ps) n) (qmapLookup m n) := by
  induction ps with
  | nil =>
    intro m i n
    simp [insertNumbers, qmapLookup, firstSome]
  | cons p ps ih =>
    intro m i n
    unfold insertNumbers
    cases hq : qToInt p with
    | none =>
      simp only [hq]
      exact ih m (i + 1) n
    | some q =>
      simp only [hq]
      by_cases hr : q < 1 ∨ 40 < q
      · rw [if_pos hr, if_pos hr]
        exact ih m (i + 1) n
      · rw [if_neg hr, if_neg hr]
        rw [ih (qmapInsert m q (qTrim (ans.getD i (ans.getLastD [])))) (i + 1) n,
            ih (qmapInsert [] q (qTrim (ans.getD i (ans.getLastD [])))) (i + 1) n]
        cases hB : qmapLookup (insertNumbers ans [] (i + 1) ps) n with
        | some w => rfl
        | none =>
          show qmapLookup (qmapInsert m q _) n
            = firstSome (qmapLookup (qmapInsert [] q _) n) (qmapLookup m n)
          rw [qmapLookup_insert, qmapLookup_insert]
          by_cases h3 : n = q <;> simp [h3, qmapLookup, firstSome]

/-- One iteration of the line loop either skips the line — for any incoming
map — or runs the insertion loop with number and answer lists that are read
off the line alone. -/
theorem processLine_cases (m : QMapIS) (l : QStr) :
    (processLine m l = m ∧ processLine [] l = []) ∨
    ∃ nums ans, processLine m l = insertNumbers ans m 0 nums
      ∧ processLine [] l = insertNumbers ans [] 0 nums := by
  unfold processLine
  by_cases he : (qTrim l).isEmpty
  · left
    rw [if_pos he, if_pos he]
    exact ⟨rfl, rfl⟩
  · rw [if_neg he, if_neg he]
    by_cases hh : (ciStartsWith (qstr ("part")) (qTrim l)
        || ciStartsWith (qstr ("passage")) (qTrim l)
        || (qTrim l).head? == some 40)
    · left
      rw [if_pos hh, if_pos hh]
      exact ⟨rfl, rfl⟩
    · rw [if_neg hh, if_neg hh]
      cases hM : matchLine (qTrim l) with
      | none => exact Or.inl ⟨rfl, rfl⟩
      | some pr =>
        obtain ⟨nums, cap⟩ := pr
        dsimp only
        by_cases hA : (qTrim cap).isEmpty
        · left
          rw [if_pos hA, if_pos hA]
          exact ⟨rfl, rfl⟩
        · right
          rw [if_neg hA, if_neg hA]
          exact ⟨nums, _, rfl, rfl⟩

/-- One parsed line writes values independent of the incoming map. -/
theorem processLine_override (m : QMapIS) (l : QStr) (n : Int) :
    qmapLookup (processLine m l) n
      = firstSome (qmapLookup (processLine [] l) n) (qmapLookup m n) := by
  rcases processLine_cases m l with ⟨h1, h2⟩ | ⟨nums, ans, h1, h2⟩
  · rw [h1, h2]
    rfl
  · rw [h1, h2]
    exact insertNumbers_override ans nums m 0 n

/-- Folding the line loop: a lookup after the fold is the fold's own write if
any, else the value already in the incoming map. -/
theorem parseLines_override (lines : List QStr) :
    ∀ (m : QMapIS) (n : Int),
      qmapLookup (parseLines m lines) n
        = firstSome (qmapLookup (parseLines [] lines) n) (qmapLookup m n) := by
  induction lines with
  | nil =>
    intro m n
    simp [parseLines, qmapLookup, firstSome]
  | cons l ls ih =>
    intro m n
    show qmapLookup (parseLines (processLine m l) ls) n
      = firstSome (qmapLookup (parseLines (processLine [] l) ls) n) (qmapLookup m n)
    rw [ih (processLine m l) n, ih (processLine [] l) n]
    cases hB : qmapLookup (parseLines [] ls) n with
    | some w => rfl
    | none =>
      show qmapLookup (processLine m l) n
        = firstSome (qmapLookup (processLine [] l) n) (qmapLookup m n)
      exact processLine_override m l n

/-- The insertion loop never writes a question number outside 1..40. -/
theorem insertNumbers_outOfRange (ans : List QStr) (ps : List QStr) :
    ∀ (m : QMapIS) (i : Nat) (n : Int), (n < 1 ∨ 40 < n) →
      qmapLookup (insertNumbers ans m i ps) n = qmapLookup m n := by
  induction ps with
  | nil => intro m i n _; rfl
  | cons p ps ih =>
    intro m i n hn
    unfold insertNumbers
    cases hq : qToInt p with
    | none => exact ih m (i + 1) n hn
    | some q =>
      simp only
      by_cases hr : q < 1 ∨ 40 < q
      · rw [if_pos hr]
        exact ih m (i + 1) n hn
      · rw [if_neg hr, ih _ (i + 1) n hn, qmapLookup_insert,
            if_neg (by omega)]

/-- One line of the parser never writes a question number outside 1..40. -/
theorem processLine_outOfRange (m : QMapIS) (l : QStr) (n : Int)
    (hn : n < 1 ∨ 40 < n) :
    qmapLookup (processLine m l) n = qmapLookup m n := by
  rcases processLine_cases m l with ⟨h1, -⟩ | ⟨nums, ans, h1, -⟩
  · rw [h1]
  · rw [h1]
    exact insertNumbers_outOfRange ans nums m 0 n hn

/-- The whole parser never maps a question number outside 1..40. -/
theorem parseLines_outOfRange (lines : List QStr) :
    ∀ (m : QMapIS) (n : Int), (n < 1 ∨ 40 < n) →
      qmapLookup (parseLines m lines) n = qmapLookup m n := by
  induction lines with
  | nil => intro m n _; rfl
  | cons l ls ih =>
    intro m n hn
    show qmapLookup (parseLines (processLine m l) ls) n = qmapLookup m n
    rw [ih _ n hn, processLine_outOfRange m l n hn]

/-! ## Claim theorems: paste parser (C6, C7) -/

/-- C6: the number token is split on `&` and paired positionally with the
comma-split answers, the last answer being reused for excess numbers, as the
three quoted examples exhibit; any number outside 1..40 is discarded; and
later lines overwrite earlier entries (a lookup in the parse of
`t1 ++ "\n" ++ t2` prefers the parse of `t2`). -/
theorem c6_parse_pairs :
    parseAnswerText (qstr ("21&22   A, E")) = [(21, qstr ("A")), (22, qstr ("E"))]
  ∧ parseAnswerText (qstr ("5   Paris")) = [(5, qstr ("Paris"))]
  ∧ parseAnswerText (qstr ("3&4&5  X")) = [(3, qstr ("X")), (4, qstr ("X")), (5, qstr ("X"))]
  ∧ (∀ t1 t2 : QStr, ∀ n : Int,
      qmapLookup (parseAnswerText (t1 ++ 10 :: t2)) n
        = firstSome (qmapLookup (parseAnswerText t2) n)
            (qmapLookup (parseAnswerText t1) n))
  ∧ (∀ text : QStr, ∀ n : Int, n < 1 ∨ 40 < n →
      qmapLookup (parseAnswerText text) n = none) := by
  refine ⟨by decide, by decide, by decide, ?_, ?_⟩
  · intro t1 t2 n
    unfold parseAnswerText
    rw [qSplitChar_append, parseLines]
    rw [List.foldl_append]
    show qmapLookup (parseLines (parseLines [] (qSplitChar 10 t1)) (qSplitChar 10 t2)) n = _
    rw [parseLines_override (qSplitChar 10 t2) (parseLines [] (qSplitChar 10 t1)) n]
  · intro text n hn
    unfold parseAnswerText
    rw [parseLines_outOfRange (qSplitChar 10 text) [] n hn]
    rfl

/-- Witness for C6's universally quantified parts at concrete inputs. -/
theorem c6_parse_pairs_witness :
    qmapLookup (parseAnswerText (qstr ("2  A") ++ 10 :: qstr ("2  B"))) 2
      = firstSome (qmapLookup (parseAnswerText (qstr ("2  B"))) 2)
          (qmapLookup (parseAnswerText (qstr ("2  A"))) 2)
  ∧ qmapLookup (parseAnswerText (qstr ("41  X"))) 41 = none :=
  ⟨(c6_parse_pairs.2.2.2.1) (qstr ("2  A")) (qstr ("2  B")) 2,
   (c6_parse_pairs.2.2.2.2) (qstr ("41  X")) 41 (Or.inr (by norm_num))⟩

/-- C7: header lines (`part`/`passage`/`(` after trimming, case-insensitive),
blank lines, and lines not matching the number-then-answer pattern are
silently skipped and contribute nothing, from any parser state; and an empty
mapping is a valid non-error outcome. -/
theorem c7_parse_skips :
    (∀ (l : QStr) (ls1 ls2 : List QStr) (m : QMapIS), skippedLine l →
        parseLines m (ls1 ++ l :: ls2) = parseLines m (ls1 ++ ls2))
  ∧ parseAnswerText (qstr ("Part 1\n1  Yes")) = [(1, qstr ("Yes"))]
  ∧ parseAnswerText (qstr ("Part 1")) = [] := by
  refine ⟨?_, by decide, by decide⟩
  intro l ls1 ls2 m h
  unfold parseLines
  rw [List.foldl_append, List.foldl_append, List.foldl_cons,
      processLine_skipped _ l h]

/-- Witness for C7 on a concrete skipped header line. -/
theorem c7_parse_skips_witness :
    parseLines [] ([qstr ("1  A")] ++ qstr ("Passage 2") :: [qstr ("2  B")])
      = parseLines [] ([qstr ("1  A")] ++ [qstr ("2  B")]) :=
  c7_parse_skips.1 (qstr ("Passage 2")) [qstr ("1  A")] [qstr ("2  B")] []
    (Or.inr (Or.inr (Or.inl (by decide))))

/-! ## Lemmas about the save-file round trip -/

/-- The rendering loop only uses its accumulator as a suffix. -/
theorem natRenderAux_acc (fuel : Nat) :
    ∀ (n : Nat) (acc : QStr), natRenderAux fuel n acc = natRenderAux fuel n [] ++ acc := by
  induction fuel with
  | zero => intro n acc; rfl
  | succ f ih =>
    intro n acc
    unfold natRenderAux
    by_cases h : n < 10
    · rw [if_pos h, if_pos h]
      rfl
    · rw [if_neg h, if_neg h, ih (n / 10) ((48 + n % 10) :: acc),
          ih (n / 10) [48 + n % 10], List.append_assoc]
      rfl

/-- The rendering loop is fuel-indifferent above the rendered number. -/
theorem natRenderAux_fuel (n : Nat) :
    ∀ (f f' : Nat) (acc : QStr), n < f → n < f' →
      natRenderAux f n acc = natRenderAux f' n acc := by
  induction n using Nat.strong_induction_on with
  | _ n ih =>
    intro f f' acc hf hf'
    cases f with
    | zero => omega
    | succ f =>
      cases f' with
      | zero => omega
      | succ f' =>
        unfold natRenderAux
        by_cases h : n < 10
        · rw [if_pos h, if_pos h]
        · rw [if_neg h, if_neg h]
          have hlt : n / 10 < n := Nat.div_lt_self (by omega) (by omega)
          exact ih (n / 10) hlt f f' _ (by omega) (by omega)

/-- Recurrence of the decimal rendering. -/
theorem natRender_eq (n : Nat) :
    natRender n = if n < 10 then [48 + n] else natRender (n / 10) ++ [48 + n % 10] := by
  unfold natRender
  by_cases h : n < 10
  · rw [if_pos h]
    simp [natRenderAux, h]
  · rw [if_neg h]
    have h1 : natRenderAux (n + 1) n [] = natRenderAux n (n / 10) [48 + n % 10] := by
      simp [natRenderAux, h]
    have hlt : n / 10 < n := Nat.div_lt_self (by omega) (by omega)
    rw [h1, natRenderAux_acc n (n / 10) [48 + n % 10],
        natRenderAux_fuel (n / 10) n (n / 10 + 1) [] (by omega) (by omega)]

/-- Reading one more trailing digit. -/
theorem digitsToNat_append_digit (a : QStr) (d : Nat) :
    digitsToNat (a ++ [d]) = digitsToNat a * 10 + (d - 48) := by
  unfold digitsToNat
  rw [List.foldl_append]
  rfl

/-- Decimal rendering and reading round-trip. -/
theorem digitsToNat_natRender (n : Nat) : digitsToNat (natRender n) = n := by
  induction n using Nat.strong_induction_on with
  | _ n ih =>
    rw [natRender_eq]
    by_cases h : n < 10
    · rw [if_pos h]
      simp [digitsToNat]
    · rw [if_neg h, digitsToNat_append_digit,
          ih (n / 10) (Nat.div_lt_self (by omega) (by omega))]
      omega

/-- Every character of a decimal rendering is a digit. -/
theorem natRender_digits (n : Nat) : ∀ c ∈ natRender n, 48 ≤ c ∧ c ≤ 57 := by
  induction n using Nat.strong_induction_on with
  | _ n ih =>
    rw [natRender_eq]
    by_cases h : n < 10
    · rw [if_pos h]
      intro c hc
      simp only [List.mem_singleton] at hc
      omega
    · rw [if_neg h]
      intro c hc
      rcases List.mem_append.mp hc with hc | hc
      · exact ih (n / 10) (Nat.div_lt_self (by omega) (by omega)) c hc
      · simp only [List.mem_singleton] at hc
        have : n % 10 < 10 := Nat.mod_lt n (by omega)
        omega

/-- A decimal rendering is never empty. -/
theorem natRender_ne_nil (n : Nat) : natRender n ≠ [] := by
  rw [natRender_eq]
  by_cases h : n < 10
  · rw [if_pos h]
    simp
  · rw [if_neg h]
    simp

/-- `spanDigits` consumes exactly a digit prefix that ends at a non-digit. -/
theorem spanDigits_digits (d : QStr) (hd : ∀ c ∈ d, isDigitCp c = true) :
    ∀ r : QStr, (∀ c0 t, r = c0 :: t → isDigitCp c0 = false) →
      spanDigits (d ++ r) = (d, r) := by
  induction d with
  | nil =>
    intro r hr
    cases r with
    | nil => rfl
    | cons c0 t =>
      rw [List.nil_append]
      unfold spanDigits
      rw [hr c0 t rfl]
      simp
  | cons a d ih =>
    intro r hr
    have ha : isDigitCp a = true := hd a (by simp)
    rw [List.cons_append]
    unfold spanDigits
    rw [ha, ih (fun c hc => hd c (List.mem_cons_of_mem _ hc)) r hr]
    rfl

/-- Reconstruction of one saved answer line. -/
theorem parseSavedLine_save (q : Nat) (a : QStr) :
    parseSavedLine (natRender q ++ 44 :: a) = some (q, a) := by
  have h1 : spanDigits (natRender q ++ 44 :: a) = (natRender q, 44 :: a) :=
    spanDigits_digits (natRender q)
      (fun c hc => by
        have := natRender_digits q c hc
        simp only [isDigitCp, Bool.and_eq_true, decide_eq_true_eq]
        omega)
      (44 :: a)
      (fun c0 t h => by
        obtain ⟨rfl, -⟩ := List.cons.injEq .. ▸ h
        rfl)
  unfold parseSavedLine
  rw [h1]
  cases hn : natRender q with
  | nil => exact absurd hn (natRender_ne_nil q)
  | cons d ds =>
    dsimp only
    rw [← hn, digitsToNat_natRender]

/-- The rendered question number contains no newline and no comma. -/
theorem natRender_no_sep (q : Nat) : ¬ 10 ∈ natRender q ∧ ¬ 44 ∈ natRender q := by
  constructor <;> · intro h
                    have := natRender_digits q _ h
                    omega

/-- Splitting the saved answer lines and parsing them back yields the answers
paired with their question numbers, for newline-free answers. -/
theorem reconstruct_saveLines (as : List QStr) (hno : ∀ a ∈ as, ¬ 10 ∈ a) :
    ∀ q : Nat, (qSplitChar 10 (saveLines q as)).filterMap parseSavedLine
      = enumAnswers q as := by
  induction as with
  | nil => intro q; rfl
  | cons a as ih =>
    intro q
    have hshape : saveLines q (a :: as)
        = (natRender q ++ 44 :: a) ++ 10 :: saveLines (q + 1) as := by
      rw [List.append_assoc, List.cons_append]
      rfl
    have hline : ¬ 10 ∈ natRender q ++ 44 :: a := by
      intro hmem
      rcases List.mem_append.mp hmem with hmem | hmem
      · exact (natRender_no_sep q).1 hmem
      · rcases List.mem_cons.mp hmem with h10 | hmem
        · omega
        · exact hno a (by simp) hmem
    rw [hshape, qSplitChar_append, qSplitChar_no_sep 10 _ hline,
        List.singleton_append, List.filterMap_cons, parseSavedLine_save q a,
        ih (fun x hx => hno x (List.mem_cons_of_mem _ hx)) (q + 1)]
    rfl

/-- The question numbers paired by `enumAnswers` carry the answers in order. -/
theorem enumAnswers_map_snd (as : List QStr) :
    ∀ q : Nat, (enumAnswers q as).map Prod.snd = as := by
  induction as with
  | nil => intro q; rfl
  | cons a as ih =>
    intro q
    unfold enumAnswers
    rw [List.map_cons, ih (q + 1)]

/-! ## Claim theorems: save-file round trip (C8) -/

/-- C8 (amended): for a section name without newlines and answers containing
no comma and no newline, writing the save file and reconstructing the mapping
from its `<n>,<answer>` lines reproduces the answers, in index order, keyed by
the question numbers 1, 2, ... -/
theorem c8_save_roundtrip (name : QStr) (answers : List QStr)
    (hname : ¬ 10 ∈ name)
    (hcomma : ∀ a ∈ answers, ¬ 44 ∈ a)
    (hnl : ∀ a ∈ answers, ¬ 10 ∈ a) :
    reconstructSaved (saveBody name answers) = enumAnswers 1 answers
  ∧ (enumAnswers 1 answers).map Prod.snd = answers := by
  refine ⟨?_, enumAnswers_map_snd answers 1⟩
  unfold reconstructSaved saveBody
  rw [qSplitChar_append, qSplitChar_no_sep 10 name hname, List.singleton_append]
  exact reconstruct_saveLines answers hnl 1

/-- Witness for C8 on a concrete save of two answers. -/
theorem c8_save_roundtrip_witness :
    reconstructSaved (saveBody (qstr ("Listening")) [qstr ("A"), qstr ("hot dog")])
      = enumAnswers 1 [qstr ("A"), qstr ("hot dog")]
  ∧ (enumAnswers 1 [qstr ("A"), qstr ("hot dog")]).map Prod.snd
      = [qstr ("A"), qstr ("hot dog")] :=
  c8_save_roundtrip (qstr ("Listening")) [qstr ("A"), qstr ("hot dog")]
    (by decide) (by decide) (by decide)

/-- C8 counterexample: the answer `"a" ++ newline ++ "b"` contains no comma,
so the claim as stated promises a faithful round trip, but the embedded
newline splits the saved line in two and reconstruction does not reproduce
the answer sequence. -/
theorem c8_counterexample :
    ¬ 44 ∈ ([97, 10, 98] : QStr)
  ∧ reconstructSaved (saveBody (qstr ("Listening")) [[97, 10, 98]])
      ≠ enumAnswers 1 [[97, 10, 98]] := by
  decide

end IELTS
